import Mathlib

/-!
# Verification of the Khip pricing calculators

Shallow embedding of the rate-computation engines of the repository:

* `src/domain/calculator/util.js` — `enumerateDaysBetweenDates`
* `src/domain/calculator/LosKhipPricingCalculator.js` — the LOS engine
  (`_parseRecordPairsIntoMap`, `_addRates`, `getBaseRates`)
* `src/domain/calculator/NightlyKhipPricingCalculator.js` — the nightly engine
  (`_getFinalOverrideDate`, `_getFinalDateToCalculate`, `getBaseRates`) and the
  variant `_parseRecordPairsIntoMap` appended in the same file (the one with the
  minimum-LOS pre-check and the `min(lastValidLos, MAX_RELEVANT_LOS)` truncation).

Conventions of the embedding:

* Calendar dates are integers (days since the Unix epoch); `daysFromCivil`
  converts a Gregorian date to that day number (moment's date arithmetic at
  day granularity).
* JavaScript numbers are modelled by `JsNum`: `nan`, the two infinities, and
  exact rationals (`Frac`, an unnormalized numerator/denominator pair kept
  executable so the whole development evaluates by `decide`).  JS `undefined`
  is `Option`'s `none`.
* A JS object used as an integer-keyed map (`recordPairMap`) is modelled by an
  association list sorted by key in strictly increasing order, which is the
  iteration order JS gives to array-index keys.  The record-pair tokens are
  taken already split and parsed (`parseInt`/`parseFloat` results), i.e. a list
  of `(losNights, price)` with `losNights : ℕ` and `price : JsNum` (`nan` for
  the literal `null` or a non-numeric token).
-/

/-- An exact rational as an unnormalized numerator/denominator pair.  All
values the engines construct have positive denominator; two fractions denote
the same JS number when they cross-multiply equal. -/
structure Frac where
  num : ℤ
  den : ℤ
deriving DecidableEq

namespace Frac

/-- Embed an integer. -/
def ofInt (n : ℤ) : Frac := ⟨n, 1⟩

/-- Exact addition. -/
def add (a b : Frac) : Frac := ⟨a.num * b.den + b.num * a.den, a.den * b.den⟩

/-- Exact multiplication. -/
def mul (a b : Frac) : Frac := ⟨a.num * b.num, a.den * b.den⟩

/-- Exact division (caller guarantees the divisor is nonzero). -/
def div (a b : Frac) : Frac := ⟨a.num * b.den, a.den * b.num⟩

/-- The denoted value is zero (denominators are nonzero on all reachable
values). -/
def isZero (a : Frac) : Bool := a.num == 0

/-- The denoted value is (strictly) positive. -/
def isPos (a : Frac) : Bool := 0 < a.num * a.den

/-- The denoted value is nonnegative. -/
def isNonneg (a : Frac) : Bool := 0 ≤ a.num * a.den

/-- Numeric equality (JS `===` on numbers): cross-multiplication. -/
def numEq (a b : Frac) : Bool := a.num * b.den == b.num * a.den

/-- `Math`-style round-half-up to an integer, as `toFixed` performs on the
exact positive values the engines produce: `round x = ⌊x + 1/2⌋`. -/
def roundInt (a : Frac) : ℤ :=
  let n := if a.den < 0 then -a.num else a.num
  let d := if a.den < 0 then -a.den else a.den
  Int.fdiv (2 * n + d) (2 * d)

end Frac

/-- JavaScript double semantics restricted to what the calculators exercise:
`NaN`, `±Infinity` and exact rational values. -/
inductive JsNum where
  | nan : JsNum
  | inf : JsNum
  | negInf : JsNum
  | num : Frac → JsNum
deriving DecidableEq

namespace JsNum

/-- JS truthiness of a number: `NaN` and `0` are falsy, everything else truthy. -/
def truthy : JsNum → Bool
  | nan => false
  | inf => true
  | negInf => true
  | num q => !q.isZero

/-- JS `isNaN` on a number. -/
def isNaN : JsNum → Bool
  | nan => true
  | _ => false

/-- JS `+` on numbers. -/
def add : JsNum → JsNum → JsNum
  | nan, _ => nan
  | _, nan => nan
  | inf, negInf => nan
  | negInf, inf => nan
  | inf, _ => inf
  | _, inf => inf
  | negInf, _ => negInf
  | _, negInf => negInf
  | num a, num b => num (a.add b)

/-- JS `*` on numbers. -/
def mul : JsNum → JsNum → JsNum
  | nan, _ => nan
  | _, nan => nan
  | inf, inf => inf
  | inf, negInf => negInf
  | negInf, inf => negInf
  | negInf, negInf => inf
  | inf, num b => if b.isZero then nan else if b.isPos then inf else negInf
  | num a, inf => if a.isZero then nan else if a.isPos then inf else negInf
  | negInf, num b => if b.isZero then nan else if b.isPos then negInf else inf
  | num a, negInf => if a.isZero then nan else if a.isPos then negInf else inf
  | num a, num b => num (a.mul b)

/-- JS `/` on numbers. -/
def div : JsNum → JsNum → JsNum
  | nan, _ => nan
  | _, nan => nan
  | inf, inf => nan
  | inf, negInf => nan
  | negInf, inf => nan
  | negInf, negInf => nan
  | inf, num b => if b.isNonneg then inf else negInf
  | negInf, num b => if b.isNonneg then negInf else inf
  | num _, inf => num (Frac.ofInt 0)
  | num _, negInf => num (Frac.ofInt 0)
  | num a, num b =>
      if b.isZero then (if a.isZero then nan else if a.isPos then inf else negInf)
      else num (a.div b)

/-- JS `parseFloat(x.toFixed(2))`: round to two decimals (half away from zero
on the positive values the engines produce); `NaN`/`±Infinity` round-trip. -/
def round2 : JsNum → JsNum
  | nan => nan
  | inf => inf
  | negInf => negInf
  | num q => num ⟨(q.mul (Frac.ofInt 100)).roundInt, 100⟩

/-- JS `===` on numbers (`NaN === NaN` is false). -/
def strictEq : JsNum → JsNum → Bool
  | nan, _ => false
  | _, nan => false
  | inf, inf => true
  | negInf, negInf => true
  | num a, num b => a.numEq b
  | _, _ => false

end JsNum

/-- JS truthiness of a possibly-`undefined` number (`undefined` is falsy). -/
def truthyOpt : Option JsNum → Bool
  | none => false
  | some v => v.truthy

/-- JS `===` on possibly-`undefined` numbers (`undefined === undefined` is
true). -/
def strictEqOpt : Option JsNum → Option JsNum → Bool
  | none, none => true
  | some a, some b => a.strictEq b
  | _, _ => false

/-- `recordPairMap`: JS object keyed by integer strings, modelled as an
association list sorted by key (JS iterates array-index keys in ascending
order). -/
abbrev RateMap := List (ℕ × JsNum)

/-- Lookup `m[k]` (`none` = `undefined`). -/
def mapGet : RateMap → ℕ → Option JsNum
  | [], _ => none
  | (k', v) :: rest, k => if k = k' then some v else mapGet rest k

/-- Assignment `m[k] = v`, keeping the ascending key order. -/
def mapSet : RateMap → ℕ → JsNum → RateMap
  | [], k, v => [(k, v)]
  | (k', v') :: rest, k, v =>
      if k < k' then (k, v) :: (k', v') :: rest
      else if k = k' then (k, v) :: rest
      else (k', v') :: mapSet rest k v

-- Maximum length of stay to consider when calculating rates
-- (constant `MAX_RELEVANT_LOS` in both calculator files)
def MAX_RELEVANT_LOS : ℕ := 7

/-- `(lastValidRate / lastValidLos) * j`, the straight-line gap-fill value. -/
def fillVal (lastLos : ℕ) (lastRate : JsNum) (j : ℕ) : JsNum :=
  (lastRate.div (JsNum.num (Frac.ofInt lastLos))).mul (JsNum.num (Frac.ofInt j))

/-- The indices `lastValidLos + 1, …, los - 1` visited by the gap-fill loop. -/
def gapIndices (lastLos los : ℕ) : List ℕ :=
  List.range' (lastLos + 1) (los - (lastLos + 1))

/-- Gap-fill loop of `LosKhipPricingCalculator._parseRecordPairsIntoMap`
(lines 24–28): fills each unfilled `j` with `j ≤ MAX_RELEVANT_LOS`. -/
def fillGapsOrig (m : RateMap) (lastLos : ℕ) (lastRate : JsNum) (los : ℕ) : RateMap :=
  (gapIndices lastLos los).foldl
    (fun m j =>
      if j ≤ MAX_RELEVANT_LOS then
        if truthyOpt (mapGet m j) then m else mapSet m j (fillVal lastLos lastRate j)
      else m)
    m

/-- One iteration of the pair loop of the original
`LosKhipPricingCalculator._parseRecordPairsIntoMap` (state:
`recordPairMap`, `lastValidLos`, `lastValidRate`). -/
def losStepOrig (st : RateMap × ℕ × JsNum) (p : ℕ × JsNum) : RateMap × ℕ × JsNum :=
  if !p.2.isNaN && p.2.truthy && decide (p.1 ≤ MAX_RELEVANT_LOS) then
    (fillGapsOrig (mapSet st.1 p.1 p.2) st.2.1 st.2.2 p.1, p.1, p.2)
  else st

/-- Trailing extension of the original parser (lines 36–44): if the last valid
LOS is below `MAX_RELEVANT_LOS`, extend the map up to `MAX_RELEVANT_LOS`
from the last valid anchor. -/
def losTailOrig (st : RateMap × ℕ × JsNum) : RateMap :=
  if decide (st.2.1 < MAX_RELEVANT_LOS) && st.2.2.truthy then
    (List.range' (st.2.1 + 1) (MAX_RELEVANT_LOS - st.2.1)).foldl
      (fun m i =>
        if truthyOpt (mapGet m i) then m else mapSet m i (fillVal st.2.1 st.2.2 i))
      st.1
  else st.1

/-- `_parseRecordPairsIntoMap` of `LosKhipPricingCalculator.js` (the engine
under `src/`): pair loop then trailing extension. -/
def parseRecordPairsIntoMap (pairs : List (ℕ × JsNum)) : RateMap :=
  losTailOrig (pairs.foldl losStepOrig ([], 0, JsNum.num (Frac.ofInt 0)))

/-- Validity test shared by both parsers: `!isNaN(rate) && rate`. -/
def validRate (r : JsNum) : Bool := !r.isNaN && r.truthy

/-- First pass of the variant parser: minimum valid `losNights`
(`none` models `minLos = Infinity`, i.e. no valid pair). -/
def minValidLos (pairs : List (ℕ × JsNum)) : Option ℕ :=
  pairs.foldl
    (fun acc p =>
      if validRate p.2 then
        some (match acc with
              | none => p.1
              | some a => min a p.1)
      else acc)
    none

/-- Gap-fill loop of the variant parser: no `j ≤ MAX_RELEVANT_LOS` bound. -/
def fillGapsVar (m : RateMap) (lastLos : ℕ) (lastRate : JsNum) (los : ℕ) : RateMap :=
  (gapIndices lastLos los).foldl
    (fun m j =>
      if truthyOpt (mapGet m j) then m else mapSet m j (fillVal lastLos lastRate j))
    m

/-- One iteration of the pair loop of the variant parser: no
`los ≤ MAX_RELEVANT_LOS` condition. -/
def losStepVar (st : RateMap × ℕ × JsNum) (p : ℕ × JsNum) : RateMap × ℕ × JsNum :=
  if validRate p.2 then
    (fillGapsVar (mapSet st.1 p.1 p.2) st.2.1 st.2.2 p.1, p.1, p.2)
  else st

/-- The variant `_parseRecordPairsIntoMap` appended in
`NightlyKhipPricingCalculator.js` (lines 121–175): minimum-LOS pre-check,
unbounded pair loop, then truncation to `min(lastValidLos, MAX_RELEVANT_LOS)`. -/
def parseRecordPairsIntoMapVariant (pairs : List (ℕ × JsNum)) : RateMap :=
  match minValidLos pairs with
  | none => []
  | some minLos =>
      if MAX_RELEVANT_LOS < minLos then []
      else
        let st := pairs.foldl losStepVar ([], 0, JsNum.num (Frac.ofInt 0))
        st.1.filter (fun kv => kv.1 ≤ min st.2.1 MAX_RELEVANT_LOS)

/-- Day number of a Gregorian calendar date (days since 1970-01-01), the
arithmetic moment performs at `YYYY-MM-DD` granularity.  Valid for CE years. -/
def daysFromCivil (y : ℤ) (m d : ℕ) : ℤ :=
  let yAdj : ℤ := if m ≤ 2 then y - 1 else y
  let era : ℤ := yAdj / 400
  let yoe : ℤ := yAdj - era * 400
  let mp : ℕ := (m + 9) % 12
  let doy : ℤ := (153 * (mp : ℤ) + 2) / 5 + (d : ℤ) - 1
  let doe : ℤ := yoe * 365 + yoe / 4 - yoe / 100 + doy
  era * 146097 + doe - 719468

/-- `enumerateDaysBetweenDates` of `util.js` (lines 29–32), exactly as written:
`numDaysBetween = endDate.diff(startDate, 'days') + (includeFinalDay ? 2 : 1)`
days starting at `startDate`.  (JS throws on a negative array length; the
embedding returns `[]` there, a case no claim exercises.) -/
def enumerateDaysBetweenDates (startDate endDate : ℤ) (includeFinalDay : Bool) : List ℤ :=
  let numDaysBetween : ℤ := (endDate - startDate) + (if includeFinalDay then 2 else 1)
  (List.range numDaysBetween.toNat).map (fun idx => startDate + idx)

/-- Output block of both engines: `{start, end, nightlyRate}` (`end` is a
reserved word, rendered `endDate`). -/
structure BaseRate where
  start : ℤ
  endDate : ℤ
  nightlyRate : Option JsNum
deriving DecidableEq

/-- `_addRates` of `LosKhipPricingCalculator.js` (lines 49–67): append a block
for a non-empty rate map, averaging `sum(values) / sum(keys)` and spanning
`startDate + (firstKey - 1)` through `startDate + lastKey`. -/
def addRates (mappedRates : List BaseRate) (losRateMap : RateMap) (startDate : ℤ) :
    List BaseRate :=
  match losRateMap with
  | [] => mappedRates
  | (k0, _) :: _ =>
      let totalLos : ℕ := (losRateMap.map (·.1)).sum
      let totalRate : JsNum :=
        (losRateMap.map (·.2)).foldl JsNum.add (JsNum.num (Frac.ofInt 0))
      let averageRate := (totalRate.div (JsNum.num (Frac.ofInt totalLos))).round2
      let lastKey : ℕ := ((losRateMap.map (·.1)).getLast?).getD 0
      mappedRates ++
        [{ start := startDate + ((k0 : ℤ) - 1), endDate := startDate + (lastKey : ℤ),
           nightlyRate := some averageRate }]

/-- One LOS record, already split at the commas: the record's start date and
the flattened `(losNights, price)` token pairs (the declared max-LOS token is
discarded by `getBaseRates`, as in the source's `[start, _, ...pairs]`). -/
structure LosRecord where
  startDate : ℤ
  pairs : List (ℕ × JsNum)

/-- The body of the `reduce` in `LosKhipPricingCalculator.getBaseRates`
(lines 81–127), recursing over the remaining records; `isFirst` tracks
`idx === 0`, the head of `rest` is `losRecords[idx + 1]`. -/
def losGo (mapped : List BaseRate) (isFirst : Bool) : List LosRecord → List BaseRate
  | [] => mapped
  | r :: rest =>
      let currentLosRateMap := parseRecordPairsIntoMap r.pairs
      let mappedDates :=
        mapped.flatMap fun b => enumerateDaysBetweenDates b.start b.endDate true
      let mapAllRates :=
        isFirst ||
          (match mapped.getLast? with
           | some lastRate => decide (lastRate.endDate < r.startDate)
           | none => false)
      if mapAllRates then
        losGo (addRates mapped currentLosRateMap r.startDate) false rest
      else
        let pruned := currentLosRateMap.filter
          fun kv => !(mappedDates.contains (r.startDate + (kv.1 : ℤ)))
        match rest with
        | [] => addRates mapped pruned r.startDate
        | next :: _ =>
            let nextLosRateMap := parseRecordPairsIntoMap next.pairs
            let nextMappedDates :=
              nextLosRateMap.map fun kv => next.startDate + (kv.1 : ℤ)
            let pruned2 := pruned.filter
              fun kv => !(nextMappedDates.contains (r.startDate + (kv.1 : ℤ)))
            losGo (addRates mapped pruned2 r.startDate) false rest

/-- `LosKhipPricingCalculator.getBaseRates` (lines 74–129).  `none` models a
payload without `losRecords` (the `!losRecords` guard); an empty list is
truthy in JS and goes through the `reduce`. -/
def losGetBaseRates (losRecords : Option (List LosRecord)) : List BaseRate :=
  match losRecords with
  | none => []
  | some records => losGo [] true records

/-- No two blocks' inclusive `[start, end]` ranges intersect. -/
def blocksDisjoint (blocks : List BaseRate) : Prop :=
  blocks.Pairwise fun a b => a.endDate < b.start ∨ b.endDate < a.start

instance (blocks : List BaseRate) : Decidable (blocksDisjoint blocks) := by
  unfold blocksDisjoint; infer_instance

/-- A nightly pricing entry (`defaultNightlyPricing` or the pricing part of an
override): an optional flat `nightlyPrice` and an optional `dayOfWeekPrices`
object mapping the weekday (0 = Sunday … 6 = Saturday, moment's `ddd` key) to
an optional price. -/
structure PricingSpec where
  nightlyPrice : Option JsNum
  dayOfWeekPrices : Option (ℕ → Option JsNum)

/-- One entry of `nightlyPricingOverrides`: `dateRange.from`/`dateRange.until`
plus the entry's own pricing fields. -/
structure NightlyOverride where
  fromDate : ℤ
  untilDate : ℤ
  nightlyPrice : Option JsNum
  dayOfWeekPrices : Option (ℕ → Option JsNum)

/-- The pricing fields of an override, as the object `pricingToUse`. -/
def NightlyOverride.pricing (o : NightlyOverride) : PricingSpec :=
  ⟨o.nightlyPrice, o.dayOfWeekPrices⟩

/-- The `nightlyPricing` payload of the nightly engine. -/
structure NightlyPricing where
  defaultNightlyPricing : PricingSpec
  nightlyPricingOverrides : List NightlyOverride

/-- `_getFinalOverrideDate` (`NightlyKhipPricingCalculator.js` lines 28–42):
latest `until` among the overrides' date ranges via the source's `reduce`
(`none` models the `null` initial value). -/
def getFinalOverrideDate (nightlyPricingOverrides : List NightlyOverride) : Option ℤ :=
  nightlyPricingOverrides.foldl
    (fun finalDate o =>
      match finalDate with
      | none => some o.untilDate
      | some f => if f < o.untilDate then some o.untilDate else some f)
    none

/-- `_getFinalDateToCalculate` (lines 11–21): the later of `moment().add(2,
'years')` (passed in as `twoYearsFromNow`, a value of the environment clock)
and the final override date. -/
def getFinalDateToCalculate (twoYearsFromNow : ℤ)
    (nightlyPricingOverrides : List NightlyOverride) : ℤ :=
  match getFinalOverrideDate nightlyPricingOverrides with
  | none => twoYearsFromNow
  | some finalOverrideDate =>
      if twoYearsFromNow < finalOverrideDate then finalOverrideDate else twoYearsFromNow

/-- Weekday of a day number, 0 = Sunday … 6 = Saturday (day 0, 1970-01-01,
was a Thursday). -/
def weekdayOf (d : ℤ) : ℕ := ((d + 4).emod 7).toNat

/-- The per-date body of the first `reduce` in
`NightlyKhipPricingCalculator.getBaseRates` (lines 70–89): first override
whose range strictly contains the date, else the default; then
`nightlyPrice || dayOfWeekPrice[dayOfWeek]`, which is the source's line 80
verbatim — when `nightlyPrice` is falsy it indexes the *number*
`dayOfWeekPrice` (yielding `undefined`), and throws a `TypeError`
(`Except.error`) when `dayOfWeekPrice` itself is `undefined`. -/
def resolveDayRate (np : NightlyPricing) (d : ℤ) : Except Unit (Option JsNum) :=
  let matched := np.nightlyPricingOverrides.find?
    fun o => decide (o.fromDate < d) && decide (d < o.untilDate)
  let pricingToUse : PricingSpec :=
    match matched with
    | some o => o.pricing
    | none => np.defaultNightlyPricing
  let dayOfWeekPrice : Option JsNum :=
    match pricingToUse.dayOfWeekPrices with
    | none => none
    | some prices => prices (weekdayOf d)
  if truthyOpt pricingToUse.nightlyPrice then Except.ok pricingToUse.nightlyPrice
  else
    match dayOfWeekPrice with
    | none => Except.error ()
    | some _ => Except.ok none

/-- The second `reduce` of the nightly `getBaseRates` (lines 90–107):
run-length compression by JS `===` on the rates. -/
def compressStep (baseRates : List BaseRate) (baseRate : BaseRate) : List BaseRate :=
  match baseRates.getLast? with
  | none => [baseRate]
  | some lastBaseRate =>
      if strictEqOpt baseRate.nightlyRate lastBaseRate.nightlyRate then
        baseRates.dropLast ++ [{ lastBaseRate with endDate := baseRate.endDate }]
      else baseRates ++ [baseRate]

instance {ε α : Type} [DecidableEq ε] [DecidableEq α] : DecidableEq (Except ε α) :=
  fun x y =>
    match x, y with
    | .ok a, .ok b =>
        if h : a = b then isTrue (by rw [h])
        else isFalse (by intro he; injection he; exact h (by assumption))
    | .error a, .error b =>
        if h : a = b then isTrue (by rw [h])
        else isFalse (by intro he; injection he; exact h (by assumption))
    | .ok _, .error _ => isFalse (by intro he; exact Except.noConfusion he)
    | .error _, .ok _ => isFalse (by intro he; exact Except.noConfusion he)

/-- `NightlyKhipPricingCalculator.getBaseRates` (lines 49–108).  `today` is
`moment()` and `twoYearsFromNow` is `moment().add(2, 'years')`, both values of
the environment clock; `none` models a payload without `nightlyPricing`. -/
def nightlyGetBaseRates (today twoYearsFromNow : ℤ)
    (nightlyPricing : Option NightlyPricing) : Except Unit (List BaseRate) :=
  match nightlyPricing with
  | none => Except.ok []
  | some np => do
      let finalDateToCalculate :=
        getFinalDateToCalculate twoYearsFromNow np.nightlyPricingOverrides
      let dates := enumerateDaysBetweenDates today finalDateToCalculate true
      let perDay ← dates.mapM fun d => do
        let nightlyRate ← resolveDayRate np d
        pure { start := d, endDate := d, nightlyRate := nightlyRate : BaseRate }
      pure (perDay.foldl compressStep [])

/-- Every finite numeric value of `v` is (strictly) positive; `nan` and the
infinities satisfy this vacuously. -/
def goodVal (v : JsNum) : Prop := ∀ q, v = JsNum.num q → q.isPos = true

/-- Shape of `lastValidRate` after at least one valid pair whose numeric
prices have positive numerator and denominator. -/
def lastOK (v : JsNum) : Prop :=
  v = .inf ∨ v = .negInf ∨ ∃ q : Frac, v = .num q ∧ 0 < q.num ∧ 0 < q.den

/-- State invariant of both parsers' pair loops. -/
def stGood (st : RateMap × ℕ × JsNum) : Prop :=
  (∀ kv ∈ st.1, goodVal kv.2) ∧
    ((st.2.1 = 0 ∧ st.2.2 = .num ⟨0, 1⟩) ∨ (1 ≤ st.2.1 ∧ lastOK st.2.2))

/-- Well-formed price token: a finite numeric price has positive denominator
and nonnegative numerator (what `parseFloat` yields on the feed's nonnegative
decimal tokens); `NaN` and infinities are unconstrained. -/
def wfPrice : JsNum → Bool
  | .num q => decide (0 < q.den) && decide (0 ≤ q.num)
  | _ => true

/-- The common shape of both gap-fill loops and of the trailing-extension
loop: fill slot `j` with `f j` unless already truthy. -/
def fillStep (f : ℕ → JsNum) : RateMap → ℕ → RateMap :=
  fun m j => if truthyOpt (mapGet m j) then m else mapSet m j (f j)

/-- The fold body of the variant's first pass (`minLos` computation). -/
def mvStep : Option ℕ → ℕ × JsNum → Option ℕ := fun acc p =>
  if validRate p.2 then
    some (match acc with
          | none => p.1
          | some a => min a p.1)
  else acc

/-! ## Claim theorems -/

/-- C1.  The original `_parseRecordPairsIntoMap` (the engine under `src/`,
`LosKhipPricingCalculator.js` lines 36–44) violates the claimed bounding: on
pairs `(1, 219.00), (2, 282.00), (3, 352.00)` it returns a map with keys
`{1,…,7}`, extending past the highest valid `losNights` (3); the variant
parser appended in `NightlyKhipPricingCalculator.js` returns exactly
`{1,2,3}` as the claim (and `challenges/bug1.md`) demands. -/
theorem C1_original_parser_extends_beyond_last_valid_los :
    (parseRecordPairsIntoMap
        [(1, .num ⟨219, 1⟩), (2, .num ⟨282, 1⟩), (3, .num ⟨352, 1⟩)]).map Prod.fst =
      [1, 2, 3, 4, 5, 6, 7] ∧
    (parseRecordPairsIntoMapVariant
        [(1, .num ⟨219, 1⟩), (2, .num ⟨282, 1⟩), (3, .num ⟨352, 1⟩)]).map Prod.fst =
      [1, 2, 3] := by decide

/-- C3.  The nightly engine's coverage runs one day past the computed horizon:
with `today = 0`, `twoYearsFromNow = 3` and a single override whose `until` is
day 5, the horizon is day 5, yet the emitted blocks cover days 0 through 6
(`enumerateDaysBetweenDates` with `includeFinalDay = true` produces
`diff + 2` days).  The union of block ranges therefore exceeds
today-through-horizon, contradicting the claim. -/
theorem C3_nightly_coverage_one_day_past_horizon :
    getFinalDateToCalculate 3 [⟨4, 5, none, none⟩] = 5 ∧
    nightlyGetBaseRates 0 3 (some
        ⟨⟨some (.num ⟨100, 1⟩), none⟩, [⟨4, 5, none, none⟩]⟩) =
      Except.ok [⟨0, 6, some (.num ⟨100, 1⟩)⟩] := by decide

/-- C4.  `enumerateDaysBetweenDates` is off by one against the claimed
contract on both flags: for `start = 0`, `end = 2` it returns `[0, 1, 2]`
with `includeFinalDay = false` (the claim demands `end` excluded, `[0, 1]`)
and `[0, 1, 2, 3]` with `includeFinalDay = true` (the claim demands
`[0, 1, 2]`). -/
theorem C4_enumerate_days_off_by_one :
    enumerateDaysBetweenDates 0 2 false = [0, 1, 2] ∧
    enumerateDaysBetweenDates 0 2 true = [0, 1, 2, 3] := by decide

/-- C5.  The two-record scenario: LOS records starting 2025-04-28 and
2025-05-06 with pairs `(1,150),(4,520),(7,840)` and `(1,160),(4,530),(7,850)`
produce exactly the two claimed blocks `2025-04-28 … 2025-05-05` at 131.79 and
`2025-05-06 … 2025-05-13` at 135.63 (`13179/100` and `13563/100`), each block
being `round2(sum of map prices / sum of map keys)` spanning
`start + (minKey - 1)` through `start + maxKey`. -/
theorem C5_two_record_scenario :
    losGetBaseRates (some
        [⟨daysFromCivil 2025 4 28,
          [(1, .num ⟨150, 1⟩), (4, .num ⟨520, 1⟩), (7, .num ⟨840, 1⟩)]⟩,
         ⟨daysFromCivil 2025 5 6,
          [(1, .num ⟨160, 1⟩), (4, .num ⟨530, 1⟩), (7, .num ⟨850, 1⟩)]⟩]) =
      [⟨daysFromCivil 2025 4 28, daysFromCivil 2025 5 5, some (.num ⟨13179, 100⟩)⟩,
       ⟨daysFromCivil 2025 5 6, daysFromCivil 2025 5 13, some (.num ⟨13563, 100⟩)⟩] := by
  decide

/-- C6.  The nightly per-day resolution does not implement the claimed
fallback: with no flat `nightlyPrice` and `dayOfWeekPrices` mapping every
weekday to 100, every day resolves to `undefined` (the source's line 80
indexes the looked-up *number*: `dayOfWeekPrice[dayOfWeek]`), not to 100; and
with neither field present it throws a `TypeError`, there being no
`NoRateAvailableError` anywhere in the source. -/
theorem C6_day_of_week_fallback_broken :
    nightlyGetBaseRates 0 2 (some
        ⟨⟨none, some fun _ => some (.num ⟨100, 1⟩)⟩, []⟩) =
      Except.ok [⟨0, 3, none⟩] ∧
    nightlyGetBaseRates 0 2 (some ⟨⟨none, none⟩, []⟩) = Except.error () := by decide

/-! ### Membership and key-bound lemmas for the rate maps -/

lemma mem_mapSet {kv : ℕ × JsNum} :
    ∀ {m : RateMap} {k : ℕ} {v : JsNum}, kv ∈ mapSet m k v → kv = (k, v) ∨ kv ∈ m := by
  intro m
  induction m with
  | nil =>
      intro k v h
      simp only [mapSet, List.mem_singleton] at h
      exact Or.inl h
  | cons hd tl ih =>
      intro k v h
      simp only [mapSet] at h
      split at h
      · rcases List.mem_cons.1 h with h' | h'
        · exact Or.inl h'
        · exact Or.inr h'
      · split at h
        · rcases List.mem_cons.1 h with h' | h'
          · exact Or.inl h'
          · exact Or.inr (List.mem_cons_of_mem _ h')
        · rcases List.mem_cons.1 h with h' | h'
          · exact Or.inr (h' ▸ List.mem_cons_self _ _)
          · rcases ih h' with h'' | h''
            · exact Or.inl h''
            · exact Or.inr (List.mem_cons_of_mem _ h'')

/-- Generic membership bound for the gap-fill/extension folds: every element of
the result was in the start map or is a fill entry `(j, f j)` with `j` in the
index list. -/
lemma mem_foldl_of_step (f : ℕ → JsNum) (h : RateMap → ℕ → RateMap)
    (hstep : ∀ m j, h m j = m ∨ h m j = mapSet m j (f j)) :
    ∀ (l : List ℕ) (m : RateMap) (kv : ℕ × JsNum),
      kv ∈ l.foldl h m → kv ∈ m ∨ ∃ j ∈ l, kv = (j, f j) := by
  intro l
  induction l with
  | nil => intro m kv hm; exact Or.inl hm
  | cons j t ih =>
      intro m kv hm
      rcases ih (h m j) kv hm with hin | ⟨j', hj', he⟩
      · rcases hstep m j with he | he
        · exact Or.inl (he ▸ hin)
        · rcases mem_mapSet (he ▸ hin) with rfl | h'
          · exact Or.inr ⟨j, List.mem_cons_self _ _, rfl⟩
          · exact Or.inl h'
      · exact Or.inr ⟨j', List.mem_cons_of_mem _ hj', he⟩

lemma fillGapsOrig_step (lastLos : ℕ) (lastRate : JsNum) :
    ∀ (m : RateMap) (j : ℕ),
      (if j ≤ MAX_RELEVANT_LOS then
        if truthyOpt (mapGet m j) then m else mapSet m j (fillVal lastLos lastRate j)
       else m) = m ∨
      (if j ≤ MAX_RELEVANT_LOS then
        if truthyOpt (mapGet m j) then m else mapSet m j (fillVal lastLos lastRate j)
       else m) = mapSet m j (fillVal lastLos lastRate j) := by
  intro m j
  split
  · split
    · exact Or.inl rfl
    · exact Or.inr rfl
  · exact Or.inl rfl

lemma tailFill_step (lastLos : ℕ) (lastRate : JsNum) :
    ∀ (m : RateMap) (i : ℕ),
      (if truthyOpt (mapGet m i) then m else mapSet m i (fillVal lastLos lastRate i)) = m ∨
      (if truthyOpt (mapGet m i) then m
       else mapSet m i (fillVal lastLos lastRate i)) = mapSet m i (fillVal lastLos lastRate i) := by
  intro m i
  split
  · exact Or.inl rfl
  · exact Or.inr rfl

lemma fillGapsVar_step (lastLos : ℕ) (lastRate : JsNum) :
    ∀ (m : RateMap) (j : ℕ),
      (if truthyOpt (mapGet m j) then m else mapSet m j (fillVal lastLos lastRate j)) = m ∨
      (if truthyOpt (mapGet m j) then m
       else mapSet m j (fillVal lastLos lastRate j)) = mapSet m j (fillVal lastLos lastRate j) := by
  intro m j
  split
  · exact Or.inl rfl
  · exact Or.inr rfl

/-- Keys of the original parser's map all lie in `1 … MAX_RELEVANT_LOS` when
every pair's `losNights` is at least 1. -/
lemma parse_keys_bounds {pairs : List (ℕ × JsNum)}
    (h1 : ∀ p ∈ pairs, 1 ≤ p.1) :
    ∀ kv ∈ parseRecordPairsIntoMap pairs, 1 ≤ kv.1 ∧ kv.1 ≤ MAX_RELEVANT_LOS := by
  have inv : ∀ (l : List (ℕ × JsNum)) (st : RateMap × ℕ × JsNum),
      (∀ p ∈ l, 1 ≤ p.1) →
      (∀ kv ∈ st.1, 1 ≤ kv.1 ∧ kv.1 ≤ MAX_RELEVANT_LOS) →
      ∀ kv ∈ (l.foldl losStepOrig st).1, 1 ≤ kv.1 ∧ kv.1 ≤ MAX_RELEVANT_LOS := by
    intro l
    induction l with
    | nil => intro st _ hst kv h; exact hst kv h
    | cons p t ih =>
        intro st hl hst kv h
        refine ih (losStepOrig st p) (fun q hq => hl q (List.mem_cons_of_mem _ hq)) ?_ kv h
        intro kv' hkv'
        unfold losStepOrig at hkv'
        split at hkv'
        case isTrue hcond =>
          simp only at hkv'
          have hle : p.1 ≤ MAX_RELEVANT_LOS :=
            of_decide_eq_true (Bool.and_elim_right hcond)
          rcases mem_foldl_of_step _ _ (fillGapsOrig_step st.2.1 st.2.2) _ _ kv' hkv'
            with hin | ⟨j, hj, rfl⟩
          · rcases mem_mapSet hin with rfl | hin'
            · exact ⟨hl p (List.mem_cons_self _ _), hle⟩
            · exact hst kv' hin'
          · simp only [gapIndices] at hj
            rcases List.mem_range'.1 hj with ⟨hlo, hhi⟩
            exact ⟨by omega, by omega⟩
        case isFalse => exact hst kv' hkv'
  intro kv h
  unfold parseRecordPairsIntoMap losTailOrig at h
  split at h
  case isTrue hguard =>
    have hlt : (List.foldl losStepOrig ([], 0, JsNum.num (Frac.ofInt 0)) pairs).2.1 <
        MAX_RELEVANT_LOS := of_decide_eq_true (Bool.and_elim_left hguard)
    rcases mem_foldl_of_step _ _
        (tailFill_step (List.foldl losStepOrig ([], 0, JsNum.num (Frac.ofInt 0)) pairs).2.1
          (List.foldl losStepOrig ([], 0, JsNum.num (Frac.ofInt 0)) pairs).2.2) _ _ kv h
      with hin | ⟨j, hj, rfl⟩
    · exact inv pairs _ h1 (by intro kv' h'; simp at h') kv hin
    · rcases List.mem_range'.1 hj with ⟨hlo, hhi⟩
      exact ⟨by omega, by omega⟩
  case isFalse => exact inv pairs _ h1 (by intro kv' h'; simp at h') kv h

/-- `_addRates` leaves the block list unchanged (empty map) or appends one
block lying within `[startDate, startDate + MAX_RELEVANT_LOS]`, provided all
keys lie in `1 … MAX_RELEVANT_LOS`. -/
lemma addRates_window (mapped : List BaseRate) (m : RateMap) (s : ℤ)
    (hk : ∀ kv ∈ m, 1 ≤ kv.1 ∧ kv.1 ≤ MAX_RELEVANT_LOS) :
    addRates mapped m s = mapped ∨
    ∃ blk, addRates mapped m s = mapped ++ [blk] ∧
      s ≤ blk.start ∧ blk.endDate ≤ s + (MAX_RELEVANT_LOS : ℤ) := by
  match m, hk with
  | [], _ => exact Or.inl rfl
  | (k0, v0) :: rest, hk =>
      right
      refine ⟨_, rfl, ?_, ?_⟩
      · have h0 := (hk (k0, v0) (List.mem_cons_self _ _)).1
        simp only
        omega
      · simp only
        have hne : (((k0, v0) :: rest).map Prod.fst).getLast? ≠ none := by
          simp [List.getLast?_eq_none_iff]
        rcases Option.ne_none_iff_exists'.1 hne with ⟨y, hy⟩
        have hymem : y ∈ ((k0, v0) :: rest).map Prod.fst := by
          rcases List.mem_getLast?_eq_getLast
              (show y ∈ (((k0, v0) :: rest).map Prod.fst).getLast? from Option.mem_def.2 hy)
            with ⟨hne', heq⟩
          exact heq ▸ List.getLast_mem hne'
        rcases List.mem_map.1 hymem with ⟨kv, hkv, rfl⟩
        have := (hk kv hkv).2
        rw [hy]
        simp only [Option.getD_some]
        omega

/-! ### Value-positivity lemmas for the rate maps (C7) -/

lemma fillVal_goodVal {lastLos : ℕ} {lastRate : JsNum} {j : ℕ}
    (hcase : (lastLos = 0 ∧ lastRate = .num ⟨0, 1⟩) ∨ (1 ≤ lastLos ∧ lastOK lastRate))
    (hj : 1 ≤ j) : goodVal (fillVal lastLos lastRate j) := by
  have hjz : ((j : ℤ) * 1 ≠ 0) := by
    simp only [mul_one]
    exact_mod_cast Nat.one_le_iff_ne_zero.1 hj
  have hjp : (0 : ℤ) < (j : ℤ) * 1 := by
    simp only [mul_one]
    exact_mod_cast hj
  rcases hcase with ⟨rfl, rfl⟩ | ⟨hl, hlast⟩
  · intro q hq
    simp [fillVal, Frac.ofInt, JsNum.div, Frac.isZero, JsNum.mul] at hq
  · have hlz : ¬ ((lastLos : ℤ) == 0) = true := by
      simp only [beq_iff_eq]
      exact_mod_cast Nat.one_le_iff_ne_zero.1 hl
    have hlp : (0 : ℤ) < (lastLos : ℤ) := by exact_mod_cast hl
    rcases hlast with rfl | rfl | ⟨q, rfl, hn, hd⟩
    · intro q' hq'
      simp only [fillVal, Frac.ofInt, JsNum.div, Frac.isNonneg] at hq'
      rw [if_pos (by simp only [decide_eq_true_eq, mul_one]; positivity)] at hq'
      simp only [JsNum.mul, Frac.isZero, Frac.isPos] at hq'
      rw [if_neg (by simpa using hjz), if_pos (by simpa using hjp)] at hq'
      exact absurd hq' (by simp)
    · intro q' hq'
      simp only [fillVal, Frac.ofInt, JsNum.div, Frac.isNonneg] at hq'
      rw [if_pos (by simp only [decide_eq_true_eq, mul_one]; positivity)] at hq'
      simp only [JsNum.mul, Frac.isZero, Frac.isPos] at hq'
      rw [if_neg (by simpa using hjz), if_pos (by simpa using hjp)] at hq'
      exact absurd hq' (by simp)
    · intro q' hq'
      simp only [fillVal, Frac.ofInt, JsNum.div, Frac.isZero, JsNum.mul] at hq'
      rw [if_neg (by simpa using hlz)] at hq'
      simp only [Frac.div, Frac.mul, JsNum.num.injEq] at hq'
      subst hq'
      simp only [Frac.isPos, decide_eq_true_eq]
      have : (0 : ℤ) < q.num * 1 * (j : ℤ) := by positivity
      have : (0 : ℤ) < q.den * (lastLos : ℤ) * 1 := by positivity
      positivity

lemma wfPrice_num {v : JsNum} {q : Frac} (h : wfPrice v = true) (hv : v = .num q) :
    0 < q.den ∧ 0 ≤ q.num := by
  subst hv
  simp only [wfPrice, Bool.and_eq_true, decide_eq_true_eq] at h
  exact ⟨h.1, h.2⟩

lemma validRate_lastOK {v : JsNum} (hv : validRate v = true) (h2 : wfPrice v = true) :
    lastOK v := by
  cases v with
  | nan => simp [validRate, JsNum.isNaN] at hv
  | inf => exact Or.inl rfl
  | negInf => exact Or.inr (Or.inl rfl)
  | num q =>
      right; right
      rcases wfPrice_num h2 rfl with ⟨hd, hn⟩
      have ht := Bool.and_elim_right hv
      simp only [JsNum.truthy, Frac.isZero, Bool.not_eq_true', beq_eq_false_iff_ne,
        ne_eq] at ht
      exact ⟨q, rfl, by omega, hd⟩

lemma lastOK_goodVal {v : JsNum} (h : lastOK v) : goodVal v := by
  rcases h with rfl | rfl | ⟨q, rfl, hn, hd⟩
  · intro q hq; cases hq
  · intro q hq; cases hq
  · intro q' hq'
    injection hq' with h'
    subst h'
    simp only [Frac.isPos, decide_eq_true_eq]
    positivity

lemma losStepOrig_good {st : RateMap × ℕ × JsNum} {p : ℕ × JsNum}
    (hst : stGood st) (hp1 : 1 ≤ p.1) (hp2 : wfPrice p.2 = true) :
    stGood (losStepOrig st p) := by
  unfold losStepOrig
  split
  case isTrue hcond =>
    have hval : validRate p.2 = true := Bool.and_elim_left hcond
    have hlast : lastOK p.2 := validRate_lastOK hval hp2
    constructor
    · intro kv hkv
      simp only at hkv
      rcases mem_foldl_of_step _ _ (fillGapsOrig_step st.2.1 st.2.2) _ _ kv hkv
        with hin | ⟨j, hj, rfl⟩
      · rcases mem_mapSet hin with rfl | hin'
        · exact lastOK_goodVal hlast
        · exact hst.1 kv hin'
      · refine fillVal_goodVal hst.2 ?_
        simp only [gapIndices] at hj
        rcases List.mem_range'.1 hj with ⟨hlo, _⟩
        omega
    · exact Or.inr ⟨hp1, hlast⟩
  case isFalse => exact hst

lemma losStepVar_good {st : RateMap × ℕ × JsNum} {p : ℕ × JsNum}
    (hst : stGood st) (hp1 : 1 ≤ p.1) (hp2 : wfPrice p.2 = true) :
    stGood (losStepVar st p) := by
  unfold losStepVar
  split
  case isTrue hcond =>
    have hlast : lastOK p.2 := validRate_lastOK hcond hp2
    constructor
    · intro kv hkv
      simp only at hkv
      rcases mem_foldl_of_step _ _ (fillGapsVar_step st.2.1 st.2.2) _ _ kv hkv
        with hin | ⟨j, hj, rfl⟩
      · rcases mem_mapSet hin with rfl | hin'
        · exact lastOK_goodVal hlast
        · exact hst.1 kv hin'
      · refine fillVal_goodVal hst.2 ?_
        simp only [gapIndices] at hj
        rcases List.mem_range'.1 hj with ⟨hlo, _⟩
        omega
    · exact Or.inr ⟨hp1, hlast⟩
  case isFalse => exact hst

lemma foldl_losStepOrig_good {l : List (ℕ × JsNum)} {st : RateMap × ℕ × JsNum}
    (hst : stGood st) (h1 : ∀ p ∈ l, 1 ≤ p.1) (h2 : ∀ p ∈ l, wfPrice p.2 = true) :
    stGood (l.foldl losStepOrig st) := by
  induction l generalizing st with
  | nil => exact hst
  | cons p t ih =>
      exact ih (losStepOrig_good hst (h1 p (List.mem_cons_self _ _))
          (h2 p (List.mem_cons_self _ _)))
        (fun q hq => h1 q (List.mem_cons_of_mem _ hq))
        (fun q hq => h2 q (List.mem_cons_of_mem _ hq))

lemma foldl_losStepVar_good {l : List (ℕ × JsNum)} {st : RateMap × ℕ × JsNum}
    (hst : stGood st) (h1 : ∀ p ∈ l, 1 ≤ p.1) (h2 : ∀ p ∈ l, wfPrice p.2 = true) :
    stGood (l.foldl losStepVar st) := by
  induction l generalizing st with
  | nil => exact hst
  | cons p t ih =>
      exact ih (losStepVar_good hst (h1 p (List.mem_cons_self _ _))
          (h2 p (List.mem_cons_self _ _)))
        (fun q hq => h1 q (List.mem_cons_of_mem _ hq))
        (fun q hq => h2 q (List.mem_cons_of_mem _ hq))

lemma losTailOrig_good {st : RateMap × ℕ × JsNum} (hst : stGood st) :
    ∀ kv ∈ losTailOrig st, goodVal kv.2 := by
  unfold losTailOrig
  split
  case isTrue hguard =>
    intro kv hkv
    rcases mem_foldl_of_step _ _ (tailFill_step st.2.1 st.2.2) _ _ kv hkv
      with hin | ⟨i, hi, rfl⟩
    · exact hst.1 kv hin
    · refine fillVal_goodVal hst.2 ?_
      rcases List.mem_range'.1 hi with ⟨hlo, _⟩
      omega
  case isFalse => exact hst.1

lemma chain_spaced_lt {r : LosRecord} {rest : List LosRecord}
    (h : List.Chain'
      (fun a b : LosRecord => a.startDate + (MAX_RELEVANT_LOS : ℤ) < b.startDate)
      (r :: rest)) :
    ∀ r' ∈ rest, r.startDate + (MAX_RELEVANT_LOS : ℤ) < r'.startDate := by
  induction rest generalizing r with
  | nil => intro r' h'; simp at h'
  | cons h2 t ih =>
      intro r' h'
      rcases List.chain'_cons.1 h with ⟨hr, hc⟩
      rcases List.mem_cons.1 h' with rfl | h'
      · exact hr
      · have h2r := ih hc r' h'
        have hM : (0 : ℤ) ≤ (MAX_RELEVANT_LOS : ℤ) := by decide
        omega

lemma addRates_preserves (mapped : List BaseRate) (X : RateMap) (s : ℤ)
    (rest' : List LosRecord)
    (hP : mapped.Pairwise (fun a b => a.endDate < b.start))
    (hbs : ∀ b ∈ mapped, b.endDate < s)
    (hX : ∀ kv ∈ X, 1 ≤ kv.1 ∧ kv.1 ≤ MAX_RELEVANT_LOS)
    (hnext : ∀ r' ∈ rest', s + (MAX_RELEVANT_LOS : ℤ) < r'.startDate) :
    (addRates mapped X s).Pairwise (fun a b => a.endDate < b.start) ∧
    ∀ b ∈ addRates mapped X s, ∀ r' ∈ rest', b.endDate < r'.startDate := by
  have hM : (0 : ℤ) ≤ (MAX_RELEVANT_LOS : ℤ) := by decide
  rcases addRates_window mapped X s hX with he | ⟨blk, he, hs1, hs2⟩
  · rw [he]
    refine ⟨hP, fun b hb r' hr' => ?_⟩
    have := hbs b hb
    have := hnext r' hr'
    omega
  · rw [he]
    constructor
    · rw [List.pairwise_append]
      refine ⟨hP, List.pairwise_singleton _ _, ?_⟩
      intro a ha b hb
      rcases List.mem_singleton.1 hb with rfl
      have := hbs a ha
      omega
    · intro b hb r' hr'
      have hrn := hnext r' hr'
      rcases List.mem_append.1 hb with hb | hb
      · have := hbs b hb
        omega
      · rcases List.mem_singleton.1 hb with rfl
        omega

lemma losGo_pairwise :
    ∀ (rest : List LosRecord) (mapped : List BaseRate) (isFirst : Bool),
      (∀ r ∈ rest, ∀ p ∈ r.pairs, 1 ≤ p.1) →
      List.Chain'
        (fun a b : LosRecord => a.startDate + (MAX_RELEVANT_LOS : ℤ) < b.startDate) rest →
      mapped.Pairwise (fun a b => a.endDate < b.start) →
      (∀ b ∈ mapped, ∀ r' ∈ rest, b.endDate < r'.startDate) →
      (losGo mapped isFirst rest).Pairwise (fun a b => a.endDate < b.start) := by
  intro rest
  induction rest with
  | nil => intro mapped isFirst _ _ hP _; exact hP
  | cons r rest' ih =>
      intro mapped isFirst h1 hchain hP hb
      have hbs : ∀ b ∈ mapped, b.endDate < r.startDate :=
        fun b m => hb b m r (List.mem_cons_self _ _)
      have hnext : ∀ r' ∈ rest', r.startDate + (MAX_RELEVANT_LOS : ℤ) < r'.startDate :=
        chain_spaced_lt hchain
      have hkeys : ∀ kv ∈ parseRecordPairsIntoMap r.pairs,
          1 ≤ kv.1 ∧ kv.1 ≤ MAX_RELEVANT_LOS :=
        parse_keys_bounds (h1 r (List.mem_cons_self _ _))
      have h1' : ∀ r' ∈ rest', ∀ p ∈ r'.pairs, 1 ≤ p.1 :=
        fun r' hr' => h1 r' (List.mem_cons_of_mem _ hr')
      have hchain' : List.Chain'
          (fun a b : LosRecord => a.startDate + (MAX_RELEVANT_LOS : ℤ) < b.startDate)
          rest' := hchain.tail
      simp only [losGo]
      split
      · obtain ⟨hP', hB'⟩ := addRates_preserves mapped _ r.startDate rest' hP hbs hkeys hnext
        exact ih _ _ h1' hchain' hP' hB'
      · cases rest' with
        | nil =>
            refine (addRates_preserves mapped _ r.startDate [] hP hbs ?_ (by simp)).1
            intro kv hkv
            exact hkeys kv (List.mem_filter.1 hkv).1
        | cons next rest'' =>
            exact ih _ _ h1' hchain'
              (addRates_preserves mapped _ r.startDate (next :: rest'') hP hbs
                (fun kv hkv => hkeys kv (List.mem_filter.1 (List.mem_filter.1 hkv).1).1)
                hnext).1
              (addRates_preserves mapped _ r.startDate (next :: rest'') hP hbs
                (fun kv hkv => hkeys kv (List.mem_filter.1 (List.mem_filter.1 hkv).1).1)
                hnext).2

/-! ### Structure lemmas for the parser-equivalence analysis (C10) -/

lemma fillGapsVar_eq_foldl (m : RateMap) (ll : ℕ) (lr : JsNum) (los : ℕ) :
    fillGapsVar m ll lr los = (gapIndices ll los).foldl (fillStep (fillVal ll lr)) m := rfl

lemma mapGet_eq_none_of_ne {X : RateMap} {j : ℕ} (hX : ∀ kv ∈ X, kv.1 ≠ j) :
    mapGet X j = none := by
  induction X with
  | nil => rfl
  | cons kv X' ih =>
      simp only [mapGet]
      rw [if_neg (fun he => hX kv (List.mem_cons_self _ _) he.symm)]
      exact ih fun kv' h => hX kv' (List.mem_cons_of_mem _ h)

lemma mapGet_append_right_ne {X : RateMap} {j : ℕ} (hX : ∀ kv ∈ X, kv.1 ≠ j) :
    ∀ m : RateMap, mapGet (m ++ X) j = mapGet m j := by
  intro m
  induction m with
  | nil => simpa using mapGet_eq_none_of_ne hX
  | cons kv m' ih =>
      simp only [List.cons_append, mapGet, List.append_eq]
      rw [ih]

lemma mapGet_append_left_ne {m : RateMap} {j : ℕ} (hm : ∀ kv ∈ m, kv.1 ≠ j)
    (X : RateMap) : mapGet (m ++ X) j = mapGet X j := by
  induction m with
  | nil => rfl
  | cons kv m' ih =>
      simp only [List.cons_append, mapGet, List.append_eq]
      rw [if_neg (fun he => hm kv (List.mem_cons_self _ _) he.symm)]
      exact ih fun kv' h => hm kv' (List.mem_cons_of_mem _ h)

lemma mapSet_append_right_gt {X : RateMap} {j : ℕ} {v : JsNum}
    (hX : ∀ kv ∈ X, j < kv.1) :
    ∀ m : RateMap, mapSet (m ++ X) j v = mapSet m j v ++ X := by
  intro m
  induction m with
  | nil =>
      cases X with
      | nil => rfl
      | cons kv X' =>
          simp only [List.nil_append, mapSet]
          rw [if_pos (hX kv (List.mem_cons_self _ _))]
          rfl
  | cons kv m' ih =>
      simp only [List.cons_append, mapSet, List.append_eq]
      split
      · rfl
      · split
        · rfl
        · rw [ih]; rfl

lemma mapSet_append_left_lt {m : RateMap} {j : ℕ} {v : JsNum}
    (hm : ∀ kv ∈ m, kv.1 < j) (X : RateMap) :
    mapSet (m ++ X) j v = m ++ mapSet X j v := by
  induction m with
  | nil => rfl
  | cons kv m' ih =>
      have hk := hm kv (List.mem_cons_self _ _)
      simp only [List.cons_append, mapSet, List.append_eq]
      rw [if_neg (by omega), if_neg (by omega)]
      rw [ih fun kv' h => hm kv' (List.mem_cons_of_mem _ h)]

lemma mapSet_eq_append {m : RateMap} {j : ℕ} {v : JsNum}
    (hm : ∀ kv ∈ m, kv.1 < j) : mapSet m j v = m ++ [(j, v)] := by
  have h := @mapSet_append_left_lt m j v hm []
  simpa using h

lemma fillStep_fold_below (f : ℕ → JsNum) {idxs : List ℕ} {X : RateMap}
    (hX : ∀ j ∈ idxs, ∀ kv ∈ X, j < kv.1) :
    ∀ m : RateMap, idxs.foldl (fillStep f) (m ++ X) = idxs.foldl (fillStep f) m ++ X := by
  induction idxs with
  | nil => intro m; rfl
  | cons j t ih =>
      intro m
      have hstep : fillStep f (m ++ X) j = fillStep f m j ++ X := by
        unfold fillStep
        rw [mapGet_append_right_ne
          (fun kv hkv => Nat.ne_of_gt (hX j (List.mem_cons_self _ _) kv hkv))]
        split
        · rfl
        · exact mapSet_append_right_gt (hX j (List.mem_cons_self _ _)) m
      simp only [List.foldl_cons, hstep]
      exact ih (fun j' hj' => hX j' (List.mem_cons_of_mem _ hj')) _

lemma fillStep_fold_above (f : ℕ → JsNum) {idxs : List ℕ} {m : RateMap}
    (hm : ∀ kv ∈ m, kv.1 ≤ MAX_RELEVANT_LOS)
    (hidx : ∀ j ∈ idxs, MAX_RELEVANT_LOS < j) :
    ∀ X : RateMap, (∀ kv ∈ X, MAX_RELEVANT_LOS < kv.1) →
      ∃ X', idxs.foldl (fillStep f) (m ++ X) = m ++ X' ∧
        ∀ kv ∈ X', MAX_RELEVANT_LOS < kv.1 := by
  induction idxs with
  | nil => intro X hX; exact ⟨X, rfl, hX⟩
  | cons j t ih =>
      intro X hX
      have hj := hidx j (List.mem_cons_self _ _)
      have hne : ∀ kv ∈ m, kv.1 ≠ j := by
        intro kv hkv
        have := hm kv hkv
        omega
      have hlt : ∀ kv ∈ m, kv.1 < j := by
        intro kv hkv
        have := hm kv hkv
        omega
      have hstep : ∃ Y, fillStep f (m ++ X) j = m ++ Y ∧
          ∀ kv ∈ Y, MAX_RELEVANT_LOS < kv.1 := by
        unfold fillStep
        rw [mapGet_append_left_ne hne X]
        split
        · exact ⟨X, rfl, hX⟩
        · refine ⟨mapSet X j (f j), mapSet_append_left_lt hlt X, ?_⟩
          intro kv hkv
          rcases mem_mapSet hkv with rfl | hkv'
          · exact hj
          · exact hX kv hkv'
      rcases hstep with ⟨Y, hY, hYk⟩
      simp only [List.foldl_cons, hY]
      exact ih (fun j' hj' => hidx j' (List.mem_cons_of_mem _ hj')) Y hYk

lemma chain_key_lt {q : ℕ × JsNum} {t : List (ℕ × JsNum)}
    (h : List.Chain' (fun a b : ℕ × JsNum => a.1 < b.1) (q :: t)) :
    ∀ p ∈ t, q.1 < p.1 := by
  induction t generalizing q with
  | nil => intro p hp; simp at hp
  | cons h2 t' ih =>
      intro p hp
      rcases List.chain'_cons.1 h with ⟨hr, hc⟩
      rcases List.mem_cons.1 hp with rfl | hp'
      · exact hr
      · exact lt_trans hr (ih hc p hp')

lemma highs_gt {l : List (ℕ × JsNum)}
    (h : List.Chain' (fun a b : ℕ × JsNum => a.1 < b.1) l) :
    ∀ p ∈ l.dropWhile (fun x => decide (x.1 ≤ MAX_RELEVANT_LOS)),
      MAX_RELEVANT_LOS < p.1 := by
  induction l with
  | nil => intro p hp; simp at hp
  | cons a t ih =>
      intro p hp
      rw [List.dropWhile_cons] at hp
      split at hp
      · exact ih h.tail p hp
      · next hcond =>
          have ha : MAX_RELEVANT_LOS < a.1 := by
            simpa using hcond
          rcases List.mem_cons.1 hp with rfl | hp'
          · exact ha
          · exact lt_trans ha (chain_key_lt h p hp')

lemma foldl_fun_congr {α β : Type} (l : List α) (f g : β → α → β)
    (h : ∀ a ∈ l, ∀ x, f x a = g x a) : ∀ b, l.foldl f b = l.foldl g b := by
  induction l with
  | nil => intro b; rfl
  | cons a t ih =>
      intro b
      simp only [List.foldl_cons]
      rw [h a (List.mem_cons_self _ _) b]
      exact ih (fun a' ha' => h a' (List.mem_cons_of_mem _ ha')) _

lemma losStepOrig_skip {st : RateMap × ℕ × JsNum} {p : ℕ × JsNum}
    (h : validRate p.2 = false) : losStepOrig st p = st := by
  unfold losStepOrig
  have h' : (!p.2.isNaN && p.2.truthy) = false := h
  rw [if_neg (by simp [h'])]

lemma losStepVar_skip {st : RateMap × ℕ × JsNum} {p : ℕ × JsNum}
    (h : validRate p.2 = false) : losStepVar st p = st := by
  unfold losStepVar
  rw [if_neg (by simp [h])]

lemma foldOrig_skip {l : List (ℕ × JsNum)}
    (h : ∀ p ∈ l, validRate p.2 = false) :
    ∀ st, l.foldl losStepOrig st = st := by
  induction l with
  | nil => intro st; rfl
  | cons p t ih =>
      intro st
      simp only [List.foldl_cons, losStepOrig_skip (h p (List.mem_cons_self _ _))]
      exact ih (fun q hq => h q (List.mem_cons_of_mem _ hq)) st

lemma foldVar_skip {l : List (ℕ × JsNum)}
    (h : ∀ p ∈ l, validRate p.2 = false) :
    ∀ st, l.foldl losStepVar st = st := by
  induction l with
  | nil => intro st; rfl
  | cons p t ih =>
      intro st
      simp only [List.foldl_cons, losStepVar_skip (h p (List.mem_cons_self _ _))]
      exact ih (fun q hq => h q (List.mem_cons_of_mem _ hq)) st

lemma foldOrig_skip_high {l : List (ℕ × JsNum)}
    (h : ∀ p ∈ l, ¬ p.1 ≤ MAX_RELEVANT_LOS) :
    ∀ st, l.foldl losStepOrig st = st := by
  induction l with
  | nil => intro st; rfl
  | cons p t ih =>
      intro st
      have hp : losStepOrig st p = st := by
        unfold losStepOrig
        rw [if_neg (by simp [h p (List.mem_cons_self _ _)])]
      simp only [List.foldl_cons, hp]
      exact ih (fun q hq => h q (List.mem_cons_of_mem _ hq)) st

lemma minValidLos_eq_foldl (pairs : List (ℕ × JsNum)) :
    minValidLos pairs = pairs.foldl mvStep none := rfl

lemma mv_some_stable : ∀ (l : List (ℕ × JsNum)) (a : ℕ),
    ∃ b, l.foldl mvStep (some a) = some b ∧ b ≤ a := by
  intro l
  induction l with
  | nil => intro a; exact ⟨a, rfl, le_refl a⟩
  | cons p t ih =>
      intro a
      simp only [List.foldl_cons, mvStep]
      split
      · rcases ih (min a p.1) with ⟨b, hb, hba⟩
        exact ⟨b, hb, le_trans hba (min_le_left _ _)⟩
      · exact ih a

lemma mv_none_no_valid : ∀ (l : List (ℕ × JsNum)),
    l.foldl mvStep none = none → ∀ p ∈ l, validRate p.2 = false := by
  intro l
  induction l with
  | nil => intro _ p hp; simp at hp
  | cons q t ih =>
      intro h p hp
      simp only [List.foldl_cons, mvStep] at h
      by_cases hq : validRate q.2 = true
      · rw [if_pos hq] at h
        rcases mv_some_stable t q.1 with ⟨b, hb, _⟩
        rw [h] at hb
        cases hb
      · rw [if_neg hq] at h
        rcases List.mem_cons.1 hp with rfl | hp'
        · exact Bool.not_eq_true _ ▸ (by simpa using hq)
        · exact ih h p hp'

lemma mv_bound : ∀ (l : List (ℕ × JsNum)) (acc : Option ℕ) (μ : ℕ),
    l.foldl mvStep acc = some μ →
    ∀ p ∈ l, validRate p.2 = true → μ ≤ p.1 := by
  intro l
  induction l with
  | nil => intro acc μ _ p hp; simp at hp
  | cons q t ih =>
      intro acc μ h p hp hv
      rcases List.mem_cons.1 hp with rfl | hp'
      · simp only [List.foldl_cons, mvStep, if_pos hv] at h
        cases acc with
        | none =>
            have h' : List.foldl mvStep (some p.1) t = some μ := h
            rcases mv_some_stable t p.1 with ⟨b, hb, hba⟩
            rw [h'] at hb
            injection hb with hb'
            omega
        | some a =>
            have h' : List.foldl mvStep (some (min a p.1)) t = some μ := h
            rcases mv_some_stable t (min a p.1) with ⟨b, hb, hba⟩
            rw [h'] at hb
            injection hb with hb'
            have := min_le_right a p.1
            omega
      · exact ih _ μ h p hp' hv

lemma mv_exists_mem : ∀ (l : List (ℕ × JsNum)) (acc : Option ℕ) (μ : ℕ),
    l.foldl mvStep acc = some μ →
    acc = some μ ∨ ∃ p ∈ l, validRate p.2 = true ∧ p.1 = μ := by
  intro l
  induction l with
  | nil => intro acc μ h; exact Or.inl h
  | cons q t ih =>
      intro acc μ h
      simp only [List.foldl_cons, mvStep] at h
      by_cases hq : validRate q.2 = true
      · rw [if_pos hq] at h
        cases acc with
        | none =>
            have h' : List.foldl mvStep (some q.1) t = some μ := h
            rcases ih _ μ h' with hacc | ⟨p, hp, hv, he⟩
            · injection hacc with he
              exact Or.inr ⟨q, List.mem_cons_self _ _, hq, he⟩
            · exact Or.inr ⟨p, List.mem_cons_of_mem _ hp, hv, he⟩
        | some a =>
            have h' : List.foldl mvStep (some (min a q.1)) t = some μ := h
            rcases ih _ μ h' with hacc | ⟨p, hp, hv, he⟩
            · injection hacc with he
              rcases min_cases a q.1 with ⟨hm, _⟩ | ⟨hm, _⟩
              · exact Or.inl (by rw [← he, hm])
              · exact Or.inr ⟨q, List.mem_cons_self _ _, hq, by rw [← he, hm]⟩
            · exact Or.inr ⟨p, List.mem_cons_of_mem _ hp, hv, he⟩
      · rw [if_neg hq] at h
        rcases ih _ μ h with hacc | ⟨p, hp, hv, he⟩
        · exact Or.inl hacc
        · exact Or.inr ⟨p, List.mem_cons_of_mem _ hp, hv, he⟩

lemma fillGaps_eq_of_le7 {m : RateMap} {ll : ℕ} {lr : JsNum} {los : ℕ}
    (h : los ≤ MAX_RELEVANT_LOS) :
    fillGapsOrig m ll lr los = fillGapsVar m ll lr los := by
  unfold fillGapsOrig fillGapsVar
  apply foldl_fun_congr
  intro j hj x
  simp only [gapIndices] at hj
  rcases List.mem_range'.1 hj with ⟨_, hhi⟩
  rw [if_pos (by omega)]

lemma losStep_eq_of_le7 {st : RateMap × ℕ × JsNum} {p : ℕ × JsNum}
    (h : p.1 ≤ MAX_RELEVANT_LOS) : losStepOrig st p = losStepVar st p := by
  unfold losStepOrig losStepVar validRate
  rw [decide_eq_true h, Bool.and_true]
  split
  · rw [fillGaps_eq_of_le7 h]
  · rfl

lemma foldl_lows_eq {l : List (ℕ × JsNum)} (h : ∀ p ∈ l, p.1 ≤ MAX_RELEVANT_LOS) :
    ∀ st, l.foldl losStepOrig st = l.foldl losStepVar st :=
  foldl_fun_congr l _ _ (fun p hp _ => losStep_eq_of_le7 (h p hp))

lemma foldVar_le7 : ∀ (l : List (ℕ × JsNum)) (st : RateMap × ℕ × JsNum),
    (∀ p ∈ l, p.1 ≤ MAX_RELEVANT_LOS) →
    (∀ kv ∈ st.1, kv.1 ≤ MAX_RELEVANT_LOS) → st.2.1 ≤ MAX_RELEVANT_LOS →
    (∀ kv ∈ (l.foldl losStepVar st).1, kv.1 ≤ MAX_RELEVANT_LOS) ∧
      (l.foldl losStepVar st).2.1 ≤ MAX_RELEVANT_LOS := by
  intro l
  induction l with
  | nil => intro st _ hm hl; exact ⟨hm, hl⟩
  | cons p t ih =>
      intro st hle hm hl
      have hp := hle p (List.mem_cons_self _ _)
      have hstep : (∀ kv ∈ (losStepVar st p).1, kv.1 ≤ MAX_RELEVANT_LOS) ∧
          (losStepVar st p).2.1 ≤ MAX_RELEVANT_LOS := by
        unfold losStepVar
        split
        · constructor
          · intro kv hkv
            simp only at hkv
            rcases mem_foldl_of_step _ _ (fillGapsVar_step st.2.1 st.2.2) _ _ kv hkv
              with hin | ⟨j, hj, rfl⟩
            · rcases mem_mapSet hin with rfl | hin'
              · exact hp
              · exact hm kv hin'
            · simp only [gapIndices] at hj
              rcases List.mem_range'.1 hj with ⟨_, hhi⟩
              simp only
              omega
          · exact hp
        · exact ⟨hm, hl⟩
      exact ih (losStepVar st p) (fun q hq => hle q (List.mem_cons_of_mem _ hq))
        hstep.1 hstep.2

lemma foldVar_last_of_valid : ∀ (l : List (ℕ × JsNum)) (st : RateMap × ℕ × JsNum),
    (∃ p ∈ l, validRate p.2 = true) →
    ∃ p ∈ l, validRate p.2 = true ∧ (l.foldl losStepVar st).2 = (p.1, p.2) := by
  intro l
  induction l with
  | nil => intro st h; rcases h with ⟨p, hp, _⟩; simp at hp
  | cons q t ih =>
      intro st hex
      by_cases hq : validRate q.2 = true
      · have hst' : (losStepVar st q).2 = (q.1, q.2) := by
          unfold losStepVar
          rw [if_pos hq]
        by_cases ht : ∃ p ∈ t, validRate p.2 = true
        · rcases ih (losStepVar st q) ht with ⟨p, hp, hv, he⟩
          exact ⟨p, List.mem_cons_of_mem _ hp, hv, by simpa using he⟩
        · push_neg at ht
          have hskip : t.foldl losStepVar (losStepVar st q) = losStepVar st q :=
            foldVar_skip (fun p hp => by simpa using ht p hp) _
          refine ⟨q, List.mem_cons_self _ _, hq, ?_⟩
          simp only [List.foldl_cons, hskip, hst']
      · rcases hex with ⟨p, hp, hv⟩
        rcases List.mem_cons.1 hp with rfl | hp'
        · exact absurd hv hq
        · rcases ih (losStepVar st q) ⟨p, hp', hv⟩ with ⟨p', hp'', hv', he⟩
          exact ⟨p', List.mem_cons_of_mem _ hp'', hv', by simpa using he⟩

lemma foldVar_lastLos_mono : ∀ (l : List (ℕ × JsNum)) (st : RateMap × ℕ × JsNum),
    List.Chain' (fun a b : ℕ × JsNum => a.1 < b.1) l →
    (∀ p ∈ l, st.2.1 < p.1) →
    st.2.1 ≤ (l.foldl losStepVar st).2.1 ∧
      ∀ p ∈ l, validRate p.2 = true → p.1 ≤ (l.foldl losStepVar st).2.1 := by
  intro l
  induction l with
  | nil => intro st _ _; exact ⟨le_refl _, fun p hp => by simp at hp⟩
  | cons q t ih =>
      intro st hchain hlt
      have hq1 := hlt q (List.mem_cons_self _ _)
      have hstep : (losStepVar st q).2.1 = st.2.1 ∨ (losStepVar st q).2.1 = q.1 := by
        unfold losStepVar
        split
        · exact Or.inr rfl
        · exact Or.inl rfl
      have hlt' : ∀ p ∈ t, (losStepVar st q).2.1 < p.1 := by
        intro p hp
        rcases hstep with he | he
        · rw [he]; exact hlt p (List.mem_cons_of_mem _ hp)
        · rw [he]; exact chain_key_lt hchain p hp
      rcases ih (losStepVar st q) hchain.tail hlt' with ⟨hmono, hbound⟩
      have hstep_ge : st.2.1 ≤ (losStepVar st q).2.1 := by
        rcases hstep with he | he
        · rw [he]
        · rw [he]; exact le_of_lt hq1
      constructor
      · exact le_trans hstep_ge (by simpa using hmono)
      · intro p hp hv
        rcases List.mem_cons.1 hp with rfl | hp'
        · have hval : (losStepVar st p).2.1 = p.1 := by
            unfold losStepVar
            rw [if_pos hv]
          calc p.1 = (losStepVar st p).2.1 := hval.symm
            _ ≤ _ := by simpa using hmono
        · exact hbound p hp' hv

lemma foldVar_high_suffix : ∀ (l : List (ℕ × JsNum)) (m' X : RateMap) (ll : ℕ)
    (lr : JsNum),
    (∀ p ∈ l, MAX_RELEVANT_LOS < p.1) →
    (∀ kv ∈ m', kv.1 ≤ MAX_RELEVANT_LOS) →
    (∀ kv ∈ X, MAX_RELEVANT_LOS < kv.1) → MAX_RELEVANT_LOS < ll →
    ∃ X' ll' lr', l.foldl losStepVar (m' ++ X, ll, lr) = (m' ++ X', ll', lr') ∧
      (∀ kv ∈ X', MAX_RELEVANT_LOS < kv.1) ∧ MAX_RELEVANT_LOS < ll' := by
  intro l
  induction l with
  | nil => intro m' X ll lr _ _ hX hll; exact ⟨X, ll, lr, rfl, hX, hll⟩
  | cons p t ih =>
      intro m' X ll lr hgt hm' hX hll
      have hp := hgt p (List.mem_cons_self _ _)
      by_cases hv : validRate p.2 = true
      · have hset : mapSet (m' ++ X) p.1 p.2 = m' ++ mapSet X p.1 p.2 :=
          mapSet_append_left_lt (fun kv hkv => by have := hm' kv hkv; omega) X
        have hXset : ∀ kv ∈ mapSet X p.1 p.2, MAX_RELEVANT_LOS < kv.1 := by
          intro kv hkv
          rcases mem_mapSet hkv with rfl | hkv'
          · exact hp
          · exact hX kv hkv'
        have hidx : ∀ j ∈ gapIndices ll p.1, MAX_RELEVANT_LOS < j := by
          intro j hj
          simp only [gapIndices] at hj
          rcases List.mem_range'.1 hj with ⟨hlo, _⟩
          omega
        rcases fillStep_fold_above (fillVal ll lr) hm' hidx (mapSet X p.1 p.2) hXset
          with ⟨Y, hY, hYk⟩
        have hstep : losStepVar (m' ++ X, ll, lr) p = (m' ++ Y, p.1, p.2) := by
          unfold losStepVar
          rw [if_pos hv]
          simp only
          rw [hset, fillGapsVar_eq_foldl, hY]
        simp only [List.foldl_cons, hstep]
        exact ih m' Y p.1 p.2 (fun q hq => hgt q (List.mem_cons_of_mem _ hq)) hm' hYk hp
      · have hstep : losStepVar (m' ++ X, ll, lr) p = (m' ++ X, ll, lr) :=
          losStepVar_skip (by simpa using hv)
        simp only [List.foldl_cons, hstep]
        exact ih m' X ll lr (fun q hq => hgt q (List.mem_cons_of_mem _ hq)) hm' hX hll

lemma exists_first_valid : ∀ (l : List (ℕ × JsNum)),
    (∃ p ∈ l, validRate p.2 = true) →
    ∃ pre q post, l = pre ++ q :: post ∧
      (∀ p ∈ pre, validRate p.2 = false) ∧ validRate q.2 = true := by
  intro l
  induction l with
  | nil => intro h; rcases h with ⟨p, hp, _⟩; simp at hp
  | cons a t ih =>
      intro hex
      by_cases ha : validRate a.2 = true
      · exact ⟨[], a, t, rfl, by intro p hp; simp at hp, ha⟩
      · have hext : ∃ p ∈ t, validRate p.2 = true := by
          rcases hex with ⟨p, hp, hv⟩
          rcases List.mem_cons.1 hp with rfl | hp'
          · exact absurd hv ha
          · exact ⟨p, hp', hv⟩
        rcases ih hext with ⟨pre, q, post, he, hpre, hq⟩
        refine ⟨a :: pre, q, post, by rw [he]; rfl, ?_, hq⟩
        intro p hp
        rcases List.mem_cons.1 hp with rfl | hp'
        · simpa using ha
        · exact hpre p hp'

lemma gapIndices_split {l0 K : ℕ} (h0 : l0 ≤ MAX_RELEVANT_LOS)
    (hK : MAX_RELEVANT_LOS < K) :
    gapIndices l0 K =
      List.range' (l0 + 1) (MAX_RELEVANT_LOS - l0) ++
        List.range' (MAX_RELEVANT_LOS + 1) (K - (MAX_RELEVANT_LOS + 1)) := by
  unfold gapIndices
  rw [show K - (l0 + 1) =
    (K - (MAX_RELEVANT_LOS + 1)) + (MAX_RELEVANT_LOS - l0) from by omega]
  rw [← List.range'_append]
  rw [show l0 + 1 + 1 * (MAX_RELEVANT_LOS - l0) = MAX_RELEVANT_LOS + 1 from by omega]

lemma fillStep_cases (f : ℕ → JsNum) :
    ∀ (m : RateMap) (j : ℕ), fillStep f m j = m ∨ fillStep f m j = mapSet m j (f j) := by
  intro m j
  unfold fillStep
  split
  · exact Or.inl rfl
  · exact Or.inr rfl

/-- The trailing extension of the original parser is the `fillStep` fold over
`lastValidLos + 1 … MAX_RELEVANT_LOS` whenever `lastValidRate` is truthy. -/
lemma losTailOrig_eq_fold (st : RateMap × ℕ × JsNum) (ht : st.2.2.truthy = true) :
    losTailOrig st =
      (List.range' (st.2.1 + 1) (MAX_RELEVANT_LOS - st.2.1)).foldl
        (fillStep (fillVal st.2.1 st.2.2)) st.1 := by
  unfold losTailOrig
  by_cases hlt : st.2.1 < MAX_RELEVANT_LOS
  · rw [if_pos (by simp [hlt, ht])]
    rfl
  · rw [if_neg (by simp [hlt])]
    rw [show MAX_RELEVANT_LOS - st.2.1 = 0 from by omega]
    rfl

lemma parseVariant_none (pairs : List (ℕ × JsNum)) (h : minValidLos pairs = none) :
    parseRecordPairsIntoMapVariant pairs = [] := by
  unfold parseRecordPairsIntoMapVariant
  split
  · rfl
  · next ν heq =>
      rw [heq] at h
      try cases h

lemma parseVariant_big (pairs : List (ℕ × JsNum)) (μ : ℕ)
    (h : minValidLos pairs = some μ) (h7 : MAX_RELEVANT_LOS < μ) :
    parseRecordPairsIntoMapVariant pairs = [] := by
  unfold parseRecordPairsIntoMapVariant
  split
  · next heq =>
      rw [heq] at h
      try cases h
  · next ν heq =>
      rw [heq] at h
      injection h with h
      subst h
      rw [if_pos h7]

lemma parseVariant_some_le (pairs : List (ℕ × JsNum)) (μ : ℕ)
    (h : minValidLos pairs = some μ) (h7 : ¬ MAX_RELEVANT_LOS < μ) :
    parseRecordPairsIntoMapVariant pairs =
      (pairs.foldl losStepVar ([], 0, JsNum.num (Frac.ofInt 0))).1.filter
        (fun kv => kv.1 ≤
          min (pairs.foldl losStepVar ([], 0, JsNum.num (Frac.ofInt 0))).2.1
            MAX_RELEVANT_LOS) := by
  unfold parseRecordPairsIntoMapVariant
  split
  · next heq =>
      rw [heq] at h
      try cases h
  · next ν heq =>
      rw [heq] at h
      injection h with h
      subst h
      rw [if_neg h7]

lemma ite_lt_eq_max (a b : ℤ) : (if a < b then b else a) = max a b := by
  rcases lt_or_ge a b with h | h
  · simp [h, max_eq_right h.le]
  · simp [not_lt.mpr h, max_eq_left h]

lemma getFinalOverrideDate_foldl (ovs : List NightlyOverride) (a : ℤ) :
    ovs.foldl
        (fun finalDate o =>
          match finalDate with
          | none => some o.untilDate
          | some f => if f < o.untilDate then some o.untilDate else some f)
        (some a) =
      some ((ovs.map (fun o => o.untilDate)).foldl max a) := by
  induction ovs generalizing a with
  | nil => rfl
  | cons o rest ih =>
      simp only [List.foldl_cons, List.map_cons]
      rw [show (if a < o.untilDate then some o.untilDate else some a) =
            some (max a o.untilDate) by rw [← ite_lt_eq_max]; split <;> rfl]
      exact ih (max a o.untilDate)

lemma foldl_max_pull (l : List ℤ) (a b : ℤ) :
    max b (l.foldl max a) = l.foldl max (max b a) := by
  induction l generalizing a with
  | nil => rfl
  | cons x t ih =>
      simp only [List.foldl_cons]
      rw [ih (max a x), max_assoc]

/-- C8.  `_getFinalDateToCalculate` returns the later of `today + 2 years`
and the latest `until` date among all overrides — i.e. the maximum of
`twoYearsFromNow` and every override's `untilDate`; with no overrides the
fold is just `twoYearsFromNow`. -/
theorem C8_final_date_is_latest_of_two_years_and_overrides
    (twoYearsFromNow : ℤ) (ovs : List NightlyOverride) :
    getFinalDateToCalculate twoYearsFromNow ovs =
      (ovs.map (fun o => o.untilDate)).foldl max twoYearsFromNow := by
  cases ovs with
  | nil => rfl
  | cons o rest =>
      unfold getFinalDateToCalculate getFinalOverrideDate
      simp only [List.foldl_cons]
      rw [getFinalOverrideDate_foldl rest o.untilDate]
      simp only [List.map_cons, List.foldl_cons]
      rw [ite_lt_eq_max, foldl_max_pull]

/-- C2 (counterexample).  The non-overlap claim fails as stated: for the
record sequence starting on days 0, 20, 12, 21 (each with the single pair
`(1, 100)`), the engine emits blocks `[0,7] [20,27] [12,19] [21,28]`, and the
second and fourth blocks share days 21–27. -/
theorem C2_blocks_overlap_counterexample :
    ¬ blocksDisjoint (losGetBaseRates (some
        [⟨0, [(1, .num ⟨100, 1⟩)]⟩, ⟨20, [(1, .num ⟨100, 1⟩)]⟩,
         ⟨12, [(1, .num ⟨100, 1⟩)]⟩, ⟨21, [(1, .num ⟨100, 1⟩)]⟩])) := by decide

/-- C2 (amended).  No two emitted blocks intersect provided the records'
`losNights` tokens are at least 1 and consecutive records' start dates are
more than `MAX_RELEVANT_LOS` days apart (so each record's
`[start, start + MAX_RELEVANT_LOS]` window clears the previous one's); the
unrestricted claim is refuted by `C2_blocks_overlap_counterexample`. -/
theorem C2_blocks_disjoint_of_spaced_records (records : List LosRecord)
    (h1 : ∀ r ∈ records, ∀ p ∈ r.pairs, 1 ≤ p.1)
    (h2 : List.Chain'
      (fun a b : LosRecord => a.startDate + (MAX_RELEVANT_LOS : ℤ) < b.startDate) records) :
    blocksDisjoint (losGetBaseRates (some records)) := by
  unfold blocksDisjoint losGetBaseRates
  exact (losGo_pairwise records [] true h1 h2 (by simp) (by simp)).imp fun h => Or.inl h

theorem C2_blocks_disjoint_witness :
    blocksDisjoint (losGetBaseRates (some
        [⟨0, [(1, .num ⟨100, 1⟩)]⟩, ⟨10, [(1, .num ⟨100, 1⟩)]⟩])) :=
  C2_blocks_disjoint_of_spaced_records
    [⟨0, [(1, .num ⟨100, 1⟩)]⟩, ⟨10, [(1, .num ⟨100, 1⟩)]⟩]
    (by decide)
    (by rw [List.chain'_cons]; exact ⟨by decide, List.chain'_singleton _⟩)

/-- C7 (counterexample).  The final maps can contain non-numeric entries: for
the single valid pair `(3, 300.00)` both parsers fill the gap keys 1 and 2
below the first valid anchor with `(lastValidRate / lastValidLos) * j =
(0 / 0) * j = NaN`, so key 1 holds `NaN` in the post-bounding map — not a
non-negative numeric value. -/
theorem C7_nan_below_first_anchor_counterexample :
    mapGet (parseRecordPairsIntoMap [(3, .num ⟨300, 1⟩)]) 1 = some .nan ∧
    mapGet (parseRecordPairsIntoMapVariant [(3, .num ⟨300, 1⟩)]) 1 = some .nan := by
  decide

/-- C7 (amended).  Provided every pair's `losNights` is at least 1 and every
finite numeric price token is well formed and nonnegative, every *numeric*
value in both parsers' final maps is strictly positive; the gap keys below the
first valid anchor may instead hold `NaN` (see
`C7_nan_below_first_anchor_counterexample`), which is what refutes the
unrestricted claim. -/
theorem C7_numeric_map_values_positive (pairs : List (ℕ × JsNum))
    (h1 : ∀ p ∈ pairs, 1 ≤ p.1) (h2 : ∀ p ∈ pairs, wfPrice p.2 = true) :
    (∀ kv ∈ parseRecordPairsIntoMap pairs, ∀ q, kv.2 = JsNum.num q → q.isPos = true) ∧
    (∀ kv ∈ parseRecordPairsIntoMapVariant pairs,
      ∀ q, kv.2 = JsNum.num q → q.isPos = true) := by
  have hinit : stGood ([], 0, JsNum.num (Frac.ofInt 0)) := by
    refine ⟨by intro kv hkv; simp at hkv, Or.inl ⟨rfl, rfl⟩⟩
  constructor
  · intro kv hkv
    exact losTailOrig_good (foldl_losStepOrig_good hinit h1 h2) kv hkv
  · intro kv hkv
    unfold parseRecordPairsIntoMapVariant at hkv
    split at hkv
    · simp at hkv
    · split at hkv
      · simp at hkv
      · exact (foldl_losStepVar_good hinit h1 h2).1 kv (List.mem_filter.1 hkv).1

theorem C7_numeric_map_values_positive_witness :
    Frac.isPos ⟨2600, 4⟩ = true :=
  (C7_numeric_map_values_positive [(1, .num ⟨150, 1⟩), (4, .num ⟨520, 1⟩)]
    (by decide) (by decide)).1 (5, .num ⟨2600, 4⟩) (by decide) ⟨2600, 4⟩ rfl

/-- C10 (counterexample).  The two parsers are not equivalent: on the pairs
`(1, 219.00), (2, 282.00), (3, 352.00)` the original extends the map to keys
`{1,…,7}` while the variant truncates it to `{1,2,3}`. -/
theorem C10_parsers_differ_counterexample :
    parseRecordPairsIntoMap
        [(1, .num ⟨219, 1⟩), (2, .num ⟨282, 1⟩), (3, .num ⟨352, 1⟩)] ≠
      parseRecordPairsIntoMapVariant
        [(1, .num ⟨219, 1⟩), (2, .num ⟨282, 1⟩), (3, .num ⟨352, 1⟩)] := by decide

/-- C10 (amended).  For pair sequences in strictly ascending `losNights` order
with `losNights ≥ 1` (the feed's wire format), the two parsers return equal
maps whenever the sequence has no valid pair at all or some valid pair with
`losNights ≥ MAX_RELEVANT_LOS`; they differ when the highest valid
`losNights` is strictly below `MAX_RELEVANT_LOS` (the original extrapolates
up to `MAX_RELEVANT_LOS`, the variant truncates —
`C10_parsers_differ_counterexample`). -/
theorem C10_parsers_agree_when_data_reaches_max (pairs : List (ℕ × JsNum))
    (hasc : List.Chain' (fun a b : ℕ × JsNum => a.1 < b.1) pairs)
    (h1 : ∀ p ∈ pairs, 1 ≤ p.1)
    (hcond : (∀ p ∈ pairs, validRate p.2 = false) ∨
      (∃ p ∈ pairs, validRate p.2 = true ∧ MAX_RELEVANT_LOS ≤ p.1)) :
    parseRecordPairsIntoMap pairs = parseRecordPairsIntoMapVariant pairs := by
  have hsplit : pairs.takeWhile (fun x => decide (x.1 ≤ MAX_RELEVANT_LOS)) ++
      pairs.dropWhile (fun x => decide (x.1 ≤ MAX_RELEVANT_LOS)) = pairs :=
    List.takeWhile_append_dropWhile _ _
  set lows := pairs.takeWhile (fun x => decide (x.1 ≤ MAX_RELEVANT_LOS)) with hlows
  set highs := pairs.dropWhile (fun x => decide (x.1 ≤ MAX_RELEVANT_LOS)) with hhighs
  have hlowmem : ∀ p ∈ lows, p ∈ pairs := by
    intro p hp
    exact (List.takeWhile_sublist _).subset (by rw [hlows] at hp; exact hp)
  have hlow : ∀ p ∈ lows, p.1 ≤ MAX_RELEVANT_LOS := by
    intro p hp
    rw [hlows] at hp
    simpa using List.mem_takeWhile_imp hp
  have hhigh : ∀ p ∈ highs, MAX_RELEVANT_LOS < p.1 := by
    intro p hp
    rw [hhighs] at hp
    exact highs_gt hasc p hp
  have hchains : List.Chain' (fun a b : ℕ × JsNum => a.1 < b.1) (lows ++ highs) := by
    rw [hsplit]; exact hasc
  have hchain_lows := (List.chain'_append.1 hchains).1
  have horig : parseRecordPairsIntoMap pairs =
      losTailOrig (lows.foldl losStepVar ([], 0, JsNum.num (Frac.ofInt 0))) := by
    unfold parseRecordPairsIntoMap
    conv_lhs => rw [← hsplit]
    rw [List.foldl_append, foldOrig_skip_high (fun p hp => not_le.mpr (hhigh p hp)) _,
      foldl_lows_eq hlow _]
  obtain ⟨m0, l0, r0, hst0⟩ :
      ∃ m0 l0 r0, lows.foldl losStepVar ([], 0, JsNum.num (Frac.ofInt 0)) = (m0, l0, r0) :=
    ⟨_, _, _, rfl⟩
  rw [hst0] at horig
  have h7s := foldVar_le7 lows ([], 0, JsNum.num (Frac.ofInt 0)) hlow
    (by intro kv hkv; simp at hkv) (Nat.zero_le _)
  rw [hst0] at h7s
  have hm0keys : ∀ kv ∈ m0, kv.1 ≤ MAX_RELEVANT_LOS := h7s.1
  have hll0 : l0 ≤ MAX_RELEVANT_LOS := h7s.2
  rw [horig]
  cases hmv : minValidLos pairs with
  | none =>
      have hnoval : ∀ p ∈ pairs, validRate p.2 = false :=
        mv_none_no_valid pairs (by rw [← minValidLos_eq_foldl]; exact hmv)
      have hst0init : ((m0, l0, r0) : RateMap × ℕ × JsNum) =
          ([], 0, JsNum.num (Frac.ofInt 0)) := by
        rw [← hst0]
        exact foldVar_skip (fun p hp => hnoval p (hlowmem p hp)) _
      rw [parseVariant_none pairs hmv, hst0init]
      decide
  | some μ =>
      by_cases h7 : MAX_RELEVANT_LOS < μ
      · rw [parseVariant_big pairs μ hmv h7]
        have hbnd := mv_bound pairs none μ (by rw [← minValidLos_eq_foldl]; exact hmv)
        have hlowinval : ∀ p ∈ lows, validRate p.2 = false := by
          intro p hp
          rcases Bool.eq_false_or_eq_true (validRate p.2) with hb | hb
          · have hb1 := hbnd p (hlowmem p hp) hb
            have hb2 := hlow p hp
            exact absurd hb1 (by omega)
          · exact hb
        have hst0init : ((m0, l0, r0) : RateMap × ℕ × JsNum) =
            ([], 0, JsNum.num (Frac.ofInt 0)) := by
          rw [← hst0]
          exact foldVar_skip hlowinval _
        rw [hst0init]
        decide
      · rw [parseVariant_some_le pairs μ hmv h7]
        rcases mv_exists_mem pairs none μ (by rw [← minValidLos_eq_foldl]; exact hmv)
          with hc | ⟨p0, hp0, hv0, he0⟩
        · cases hc
        have hp0low : p0 ∈ lows := by
          have hm : p0 ∈ lows ++ highs := by rw [hsplit]; exact hp0
          rcases List.mem_append.1 hm with h | h
          · exact h
          · have := hhigh p0 h
            have : ¬ MAX_RELEVANT_LOS < μ := h7
            omega
        obtain ⟨pl, hpl, hplv, hst0last⟩ :=
          foldVar_last_of_valid lows ([], 0, JsNum.num (Frac.ofInt 0)) ⟨p0, hp0low, hv0⟩
        rw [hst0] at hst0last
        have hl0pl : l0 = pl.1 := congrArg Prod.fst hst0last
        have hr0pl : r0 = pl.2 := congrArg Prod.snd hst0last
        have hr0truthy : r0.truthy = true := by
          rw [hr0pl]
          exact Bool.and_elim_right hplv
        have htail : losTailOrig ((m0, l0, r0) : RateMap × ℕ × JsNum) =
            (List.range' (l0 + 1) (MAX_RELEVANT_LOS - l0)).foldl
              (fillStep (fillVal l0 r0)) m0 :=
          losTailOrig_eq_fold (m0, l0, r0) hr0truthy
        have hM'keys : ∀ kv ∈ (List.range' (l0 + 1) (MAX_RELEVANT_LOS - l0)).foldl
            (fillStep (fillVal l0 r0)) m0, kv.1 ≤ MAX_RELEVANT_LOS := by
          intro kv hkv
          rcases mem_foldl_of_step (fillVal l0 r0) _ (fillStep_cases (fillVal l0 r0))
              _ _ kv hkv with hin | ⟨j, hj, rfl⟩
          · exact hm0keys kv hin
          · rcases List.mem_range'.1 hj with ⟨hlo, hhi⟩
            simp only
            omega
        by_cases hhv : ∃ p ∈ highs, validRate p.2 = true
        · obtain ⟨hpre, q, hpost, hsplit2, hpreinv, hqv⟩ := exists_first_valid highs hhv
          have hqhigh : MAX_RELEVANT_LOS < q.1 :=
            hhigh q (by rw [hsplit2]; exact List.mem_append.2 (Or.inr (List.mem_cons_self _ _)))
          have hbelow : ∀ j ∈ List.range' (l0 + 1) (MAX_RELEVANT_LOS - l0),
              ∀ kv ∈ ([(q.1, q.2)] : RateMap), j < kv.1 := by
            intro j hj kv hkv
            rcases List.mem_singleton.1 hkv with rfl
            rcases List.mem_range'.1 hj with ⟨_, hhi⟩
            simp only
            omega
          have hseg2idx : ∀ j ∈ List.range' (MAX_RELEVANT_LOS + 1)
              (q.1 - (MAX_RELEVANT_LOS + 1)), MAX_RELEVANT_LOS < j := by
            intro j hj
            rcases List.mem_range'.1 hj with ⟨hlo, _⟩
            omega
          obtain ⟨Y, hY, hYk⟩ := fillStep_fold_above (fillVal l0 r0) hM'keys hseg2idx
            ([(q.1, q.2)] : RateMap)
            (by intro kv hkv; rcases List.mem_singleton.1 hkv with rfl; exact hqhigh)
          have hstepq : losStepVar ((m0, l0, r0) : RateMap × ℕ × JsNum) q =
              ((List.range' (l0 + 1) (MAX_RELEVANT_LOS - l0)).foldl
                (fillStep (fillVal l0 r0)) m0 ++ Y, q.1, q.2) := by
            unfold losStepVar
            rw [if_pos hqv]
            show (fillGapsVar (mapSet m0 q.1 q.2) l0 r0 q.1, q.1, q.2) = _
            rw [mapSet_eq_append
                (fun kv hkv => lt_of_le_of_lt (hm0keys kv hkv) hqhigh),
              fillGapsVar_eq_foldl, gapIndices_split hll0 hqhigh, List.foldl_append,
              fillStep_fold_below (fillVal l0 r0) hbelow m0, hY]
          obtain ⟨X', ll', lr', hfin, hX'k, hll'⟩ := foldVar_high_suffix hpost
            ((List.range' (l0 + 1) (MAX_RELEVANT_LOS - l0)).foldl
              (fillStep (fillVal l0 r0)) m0) Y q.1 q.2
            (fun p hp => hhigh p
              (by rw [hsplit2]; exact List.mem_append.2 (Or.inr (List.mem_cons_of_mem _ hp))))
            hM'keys hYk hqhigh
          have hfold2 : pairs.foldl losStepVar ([], 0, JsNum.num (Frac.ofInt 0)) =
              ((List.range' (l0 + 1) (MAX_RELEVANT_LOS - l0)).foldl
                (fillStep (fillVal l0 r0)) m0 ++ X', ll', lr') := by
            conv_lhs => rw [← hsplit]
            rw [List.foldl_append, hst0, hsplit2, List.foldl_append,
              foldVar_skip hpreinv _]
            simp only [List.foldl_cons]
            rw [hstepq]
            exact hfin
          rw [htail, hfold2]
          show _ = List.filter _ _
          rw [min_eq_right (le_of_lt hll'), List.filter_append]
          rw [List.filter_eq_self.2
            (fun kv hkv => decide_eq_true (hM'keys kv hkv))]
          rw [show X'.filter (fun kv => decide (kv.1 ≤ MAX_RELEVANT_LOS)) = [] from
            List.filter_eq_nil_iff.2 (fun kv hkv => by
              simp only [decide_eq_true_eq]
              have := hX'k kv hkv
              omega)]
          rw [List.append_nil]
        · push_neg at hhv
          have hhinval : ∀ p ∈ highs, validRate p.2 = false := by
            intro p hp
            rcases Bool.eq_false_or_eq_true (validRate p.2) with hb | hb
            · exact absurd hb (hhv p hp)
            · exact hb
          have hfold2 : pairs.foldl losStepVar ([], 0, JsNum.num (Frac.ofInt 0)) =
              ((m0, l0, r0) : RateMap × ℕ × JsNum) := by
            conv_lhs => rw [← hsplit]
            rw [List.foldl_append, hst0, foldVar_skip hhinval _]
          rcases hcond with hnone | ⟨pstar, hps, hpsv, hps7⟩
          · rw [hnone p0 hp0] at hv0
            cases hv0
          have hpslow : pstar ∈ lows := by
            have hm : pstar ∈ lows ++ highs := by rw [hsplit]; exact hps
            rcases List.mem_append.1 hm with h | h
            · exact h
            · rw [hhinval pstar h] at hpsv
              cases hpsv
          have hps_eq : pstar.1 = MAX_RELEVANT_LOS :=
            le_antisymm (hlow pstar hpslow) hps7
          have hmono := foldVar_lastLos_mono lows ([], 0, JsNum.num (Frac.ofInt 0))
            hchain_lows
            (fun p hp => by
              have := h1 p (hlowmem p hp)
              simpa using this)
          have hge : MAX_RELEVANT_LOS ≤ l0 := by
            have hb := hmono.2 pstar hpslow hpsv
            rw [hst0] at hb
            simp only at hb
            omega
          have hl0eq : l0 = MAX_RELEVANT_LOS := le_antisymm hll0 hge
          have htail2 : losTailOrig ((m0, l0, r0) : RateMap × ℕ × JsNum) = m0 := by
            unfold losTailOrig
            rw [if_neg (by simp [hl0eq])]
          rw [htail2, hfold2]
          show _ = List.filter _ _
          rw [show min l0 MAX_RELEVANT_LOS = MAX_RELEVANT_LOS by rw [hl0eq, min_self]]
          exact (List.filter_eq_self.2
            (fun kv hkv => decide_eq_true (hm0keys kv hkv))).symm

theorem C10_parsers_agree_witness :
    parseRecordPairsIntoMap [(1, .num ⟨150, 1⟩), (7, .num ⟨840, 1⟩)] =
      parseRecordPairsIntoMapVariant [(1, .num ⟨150, 1⟩), (7, .num ⟨840, 1⟩)] :=
  C10_parsers_agree_when_data_reaches_max
    [(1, .num ⟨150, 1⟩), (7, .num ⟨840, 1⟩)]
    (by rw [List.chain'_cons]; exact ⟨by decide, List.chain'_singleton _⟩)
    (by decide)
    (Or.inr ⟨(7, .num ⟨840, 1⟩), by decide, by decide, by decide⟩)

/-- C9.  Empty inputs give empty outputs without error: a payload with no
`losRecords` and one with `losRecords = []` both yield `[]` from the LOS
engine, and a payload with no `nightlyPricing` yields `[]` from the nightly
engine for every clock value. -/
theorem C9_empty_inputs_empty_outputs :
    losGetBaseRates none = [] ∧ losGetBaseRates (some []) = [] ∧
    ∀ today twoYearsFromNow : ℤ,
      nightlyGetBaseRates today twoYearsFromNow none = Except.ok [] := by
  exact ⟨rfl, rfl, fun _ _ => rfl⟩
